import Mathlib

/-!
Verification of the core of a recursive Monte-Carlo ray tracer written in
Rust.  The embedding below models `f64` by the real numbers `ℝ` (so all
identities hold exactly), the 3-component `nalgebra::Vector3<f64>` by the
structure `Vec3`, and the value `f64::INFINITY` used as an intersection
upper bound by `⊤ : WithTop ℝ`.  Randomness consumed by the material
scatter functions is passed in explicitly as a `ScatterRand` record, so
every theorem quantifies over all possible random draws.

Definitions are translated from the repository sources:
`src/shapes.rs` (Sphere), `src/hittable.rs` (HitRecord, HittableList),
`src/material.rs` (Lambertian, Metal, Dielectric, reflect, refract,
vector_near_zero), `src/lib.rs` (ray_color) and `src/bin/main.rs`
(pixel output).  The `Ray` type lives in `src/ray.rs`, which is not part
of the available sources; it is modelled from the specification.
-/

noncomputable section

/-- Three-component real vector, modelling `nalgebra::Vector3<f64>`
(used uniformly for points, directions and colors). -/
structure Vec3 where
  x : ℝ
  y : ℝ
  z : ℝ

namespace Vec3

theorem ext_iff' (v w : Vec3) : v = w ↔ v.x = w.x ∧ v.y = w.y ∧ v.z = w.z := by
  constructor
  · rintro rfl; exact ⟨rfl, rfl, rfl⟩
  · rcases v with ⟨a, b, c⟩; rcases w with ⟨a', b', c'⟩
    rintro ⟨h1, h2, h3⟩; simp_all

instance : Add Vec3 := ⟨fun v w => ⟨v.x + w.x, v.y + w.y, v.z + w.z⟩⟩
instance : Sub Vec3 := ⟨fun v w => ⟨v.x - w.x, v.y - w.y, v.z - w.z⟩⟩
instance : Neg Vec3 := ⟨fun v => ⟨-v.x, -v.y, -v.z⟩⟩
instance : SMul ℝ Vec3 := ⟨fun r v => ⟨r * v.x, r * v.y, r * v.z⟩⟩
instance : HDiv Vec3 ℝ Vec3 := ⟨fun v r => ⟨v.x / r, v.y / r, v.z / r⟩⟩

@[simp] theorem add_def (v w : Vec3) : v + w = ⟨v.x + w.x, v.y + w.y, v.z + w.z⟩ := rfl
@[simp] theorem sub_def (v w : Vec3) : v - w = ⟨v.x - w.x, v.y - w.y, v.z - w.z⟩ := rfl
@[simp] theorem neg_def (v : Vec3) : -v = ⟨-v.x, -v.y, -v.z⟩ := rfl
@[simp] theorem smul_def (r : ℝ) (v : Vec3) : r • v = ⟨r * v.x, r * v.y, r * v.z⟩ := rfl
@[simp] theorem div_def (v : Vec3) (r : ℝ) : v / r = ⟨v.x / r, v.y / r, v.z / r⟩ := rfl

/-- Constant vector, `Vector3::from_element`: all three components equal. -/
def from_element (r : ℝ) : Vec3 := ⟨r, r, r⟩

/-- Dot product. -/
def dot (v w : Vec3) : ℝ := v.x * w.x + v.y * w.y + v.z * w.z

/-- Squared norm (`norm_squared`). -/
def normSq (v : Vec3) : ℝ := v.dot v

/-- Euclidean norm. -/
def norm (v : Vec3) : ℝ := Real.sqrt v.normSq

/-- Normalization: divide by the norm. -/
def normalize (v : Vec3) : Vec3 := v / v.norm

/-- Componentwise product (`component_mul`). -/
def componentMul (v w : Vec3) : Vec3 := ⟨v.x * w.x, v.y * w.y, v.z * w.z⟩

/-- Componentwise comparison, as nalgebra implements `PartialOrd::lt`
on matrices:
`v < w` holds iff every component of `v` is strictly below the
corresponding component of `w`. -/
def compLt (v w : Vec3) : Prop := v.x < w.x ∧ v.y < w.y ∧ v.z < w.z

instance (v w : Vec3) : Decidable (compLt v w) := by unfold compLt; infer_instance

theorem normSq_nonneg (v : Vec3) : 0 ≤ v.normSq := by
  have hx := mul_self_nonneg v.x
  have hy := mul_self_nonneg v.y
  have hz := mul_self_nonneg v.z
  simp only [normSq, dot]; linarith

end Vec3

/-- A color is a `Vector3<f64>`. -/
abbrev Color := Vec3

/-- A point is a `Vector3<f64>`. -/
abbrev Point := Vec3

/-- Modelled from the spec: `src/ray.rs` is not among the available
sources.  "Ray: `{origin: Point, direction: Vector}`. Immutable once
constructed." -/
structure Ray where
  origin : Point
  direction : Vec3

/-- Modelled from the spec: "`at(t) = origin + t*direction`". -/
def Ray.at (r : Ray) (t : ℝ) : Point := r.origin + t • r.direction

/-- The three material variants of `src/material.rs`, as a sum type
(the Rust source uses trait objects `dyn Material`). -/
inductive Material where
  | lambertian (albedo : Color)
  | metal (albedo : Color) (fuzz : ℝ)
  | dielectric (refraction_index : ℝ)

/-- Type `HitRecord` from `src/hittable.rs`. -/
structure HitRecord where
  point : Point
  normal : Vec3
  material : Material
  t : ℝ
  front_face : Bool

/-- Constructor `HitRecord::new` from `src/hittable.rs`: records whether the ray hit
the front face (`direction ⬝ outward_normal < 0`) and flips the stored
normal (`normal *= -1.0`) when it did not. -/
def HitRecord.new (point : Point) (outward_normal : Vec3) (material : Material)
    (t : ℝ) (ray : Ray) : HitRecord :=
  let front_face := ray.direction.dot outward_normal < 0
  { point := point
    normal := if front_face then outward_normal else (-1 : ℝ) • outward_normal
    material := material
    t := t
    front_face := decide front_face }

/-- Type `Sphere` from `src/shapes.rs`. -/
structure Sphere where
  origin : Point
  radius : ℝ
  material : Material

/-- Function `Sphere::hit` from `src/shapes.rs`.  The upper bound is a
`WithTop ℝ` because `ray_color` passes `f64::INFINITY` for it. -/
def Sphere.hit (s : Sphere) (ray : Ray) (t_min : ℝ) (t_max : WithTop ℝ) :
    Option HitRecord :=
  let oc := ray.origin - s.origin
  let a := ray.direction.normSq
  let half_b := oc.dot ray.direction
  let c := oc.normSq - s.radius * s.radius
  let discriminant := half_b * half_b - a * c
  if discriminant < 0 then none
  else
    let root1 := (-half_b - Real.sqrt discriminant) / a
    let root2 := (-half_b + Real.sqrt discriminant) / a
    if root1 < t_min ∨ t_max < (root1 : WithTop ℝ) then
      if root2 < t_min ∨ t_max < (root2 : WithTop ℝ) then none
      else
        some (HitRecord.new (ray.at root2) ((ray.at root2 - s.origin) / s.radius)
          s.material root2 ray)
    else
      some (HitRecord.new (ray.at root1) ((ray.at root1 - s.origin) / s.radius)
        s.material root1 ray)

/-- Type `HittableList` from `src/hittable.rs`.  The only primitive
implementation of the `Hittable` trait in the repository is `Sphere`,
and the scenes built by `src/bin/main.rs` contain only spheres, so the
members are modelled as spheres. -/
structure HittableList where
  items : List Sphere

/-- The loop body of `HittableList::hit`: scan the members, keeping the
most recent hit and shrinking the upper bound to its `t`. -/
def hitScan (ray : Ray) (t_min : ℝ) :
    List Sphere → Option HitRecord → WithTop ℝ → Option HitRecord
  | [], result, _ => result
  | item :: rest, result, closest_so_far =>
    match item.hit ray t_min closest_so_far with
    | some hit_record => hitScan ray t_min rest (some hit_record) (hit_record.t : WithTop ℝ)
    | none => hitScan ray t_min rest result closest_so_far

/-- Function `HittableList::hit` from `src/hittable.rs`: linear scan with
`closest_so_far` initialized to `t_max`. -/
def HittableList.hit (l : HittableList) (ray : Ray) (t_min : ℝ) (t_max : WithTop ℝ) :
    Option HitRecord :=
  hitScan ray t_min l.items none t_max

/-- The random draws a single scatter event can consume, passed
explicitly: the result of `random_unit_vector()`, the result of
`random_point_in_unit_sphere()`, and the uniform draw in `[0,1)` used
by `Dielectric`. -/
structure ScatterRand where
  unitVector : Vec3
  inUnitSphere : Point
  uniform : ℝ

/-- Function `vector_near_zero` from `src/material.rs`:
`vector < &Vector::from_element(1e-8)`, which under the componentwise
`PartialOrd` of nalgebra is a *signed* comparison of every component
against `1e-8`. -/
def vector_near_zero (vector : Vec3) : Prop :=
  Vec3.compLt vector (Vec3.from_element 1e-8)

instance (v : Vec3) : Decidable (vector_near_zero v) := by
  unfold vector_near_zero; infer_instance

/-- Function `Lambertian::scatter` from `src/material.rs`. -/
def Lambertian.scatter (albedo : Color) (_input_ray : Ray) (hit_record : HitRecord)
    (rnd : ScatterRand) : Option (Ray × Color) :=
  let scatter_direction := hit_record.normal + rnd.unitVector
  let scatter_direction :=
    if vector_near_zero scatter_direction then hit_record.normal else scatter_direction
  some (Ray.mk hit_record.point scatter_direction, albedo)

/-- Function `reflect` from `src/material.rs`: `v - 2 (v⬝n) n`. -/
def reflect (vector normal : Vec3) : Vec3 :=
  vector - (2 * vector.dot normal) • normal

/-- Function `Metal::scatter` from `src/material.rs`. -/
def Metal.scatter (albedo : Color) (fuzz : ℝ) (input_ray : Ray) (hit_record : HitRecord)
    (rnd : ScatterRand) : Option (Ray × Color) :=
  let reflected_ray := reflect input_ray.direction.normalize hit_record.normal
  let scattered_ray := Ray.mk hit_record.point (reflected_ray + fuzz • rnd.inUnitSphere)
  if scattered_ray.direction.dot hit_record.normal > 0 then
    some (scattered_ray, albedo)
  else
    none

/-- Function `refract` from `src/material.rs`. -/
def refract (vector normal : Vec3) (refraction_ratio : ℝ) : Vec3 :=
  let cos_theta := min ((-vector).dot normal) 1
  let r_out_perpendicular := refraction_ratio • (vector + cos_theta • normal)
  let r_out_parallel :=
    (-1 * Real.sqrt |1 - r_out_perpendicular.normSq|) • normal
  r_out_perpendicular + r_out_parallel

/-- Function `Dielectric::reflectance` (the Schlick approximation). -/
def Dielectric.reflectance (cosine ref_idx : ℝ) : ℝ :=
  let r0 := (1 - ref_idx) / (1 + ref_idx)
  let r0 := r0 * r0
  r0 + (1 - r0) * (1 - cosine) ^ 5

/-- Function `Dielectric::scatter` from `src/material.rs`. -/
def Dielectric.scatter (refraction_index : ℝ) (input_ray : Ray) (hit_record : HitRecord)
    (rnd : ScatterRand) : Option (Ray × Color) :=
  let refraction_ratio :=
    if hit_record.front_face then 1 / refraction_index else refraction_index
  let unit_direction := input_ray.direction.normalize
  let cos_theta := min ((-unit_direction).dot hit_record.normal) 1
  let sin_theta := Real.sqrt (1 - cos_theta * cos_theta)
  let cannot_refract := refraction_ratio * sin_theta > 1
  let has_reflectance :=
    Dielectric.reflectance cos_theta refraction_ratio > rnd.uniform
  let scatter_direction :=
    if cannot_refract ∨ has_reflectance then
      reflect unit_direction hit_record.normal
    else
      refract unit_direction hit_record.normal refraction_ratio
  let scattered_ray := Ray.mk hit_record.point scatter_direction
  let attenuation := Vec3.from_element 1
  some (scattered_ray, attenuation)

/-- Dispatch of `scatter` over the `Material` trait objects. -/
def Material.scatter : Material → Ray → HitRecord → ScatterRand → Option (Ray × Color)
  | .lambertian albedo, input_ray, hit_record, rnd =>
    Lambertian.scatter albedo input_ray hit_record rnd
  | .metal albedo fuzz, input_ray, hit_record, rnd =>
    Metal.scatter albedo fuzz input_ray hit_record rnd
  | .dielectric refraction_index, input_ray, hit_record, rnd =>
    Dielectric.scatter refraction_index input_ray hit_record rnd

/-- Function `ray_color` from `src/lib.rs`.  The random draws for each recursion
level are supplied by `rnd`: level `d` consumes `rnd 0` and the
recursive call receives the shifted stream. -/
def ray_color (ray : Ray) (world : HittableList) (recursion_depth : ℕ)
    (rnd : ℕ → ScatterRand) : Color :=
  match recursion_depth with
  | 0 => Vec3.from_element 0
  | d + 1 =>
    match world.hit ray 0.001 ⊤ with
    | some hit_record =>
      match hit_record.material.scatter ray hit_record (rnd 0) with
      | some (scattered_ray, attenuation) =>
        Vec3.componentMul (ray_color scattered_ray world d (fun n => rnd (n + 1)))
          attenuation
      | none => Vec3.from_element 0
    | none =>
      let unit_direction := ray.direction.normalize
      let t := 0.5 * (unit_direction.y + 1)
      (1 - t) • Vec3.from_element 1 + t • (⟨0.5, 0.7, 1.0⟩ : Color)

/-- Truncation toward zero, the behaviour of the Rust `as i32` cast on an
in-range `f64`. -/
def f64_trunc (x : ℝ) : ℤ := if 0 ≤ x then ⌊x⌋ else ⌈x⌉

/-- The per-channel output transform of `src/bin/main.rs`:
`(x / samples_per_pixel).sqrt().clamp(0.0, 0.999) * 256.0`, then the
`as i32` cast used when the pixel is written. -/
def write_channel (sum : ℝ) (samples_per_pixel : ℕ) : ℤ :=
  f64_trunc (min (max (Real.sqrt (sum / samples_per_pixel)) 0) 0.999 * 256)

/-! ## Concrete scene data used to exercise the intersection code -/

/-- A gray diffuse material used by the concrete examples. -/
def grayMat : Material := Material.lambertian ⟨0.5, 0.5, 0.5⟩

/-- Unit sphere centered at `(2,0,0)`. -/
def sphA : Sphere := ⟨⟨2, 0, 0⟩, 1, grayMat⟩

/-- Unit sphere centered at `(1,1,0)`; it touches the x-axis at `(1,0,0)`. -/
def sphB : Sphere := ⟨⟨1, 1, 0⟩, 1, grayMat⟩

/-- Unit sphere centered at the coordinate origin. -/
def sphC : Sphere := ⟨⟨0, 0, 0⟩, 1, grayMat⟩

/-- Ray along the positive x-axis from the coordinate origin. -/
def rayX : Ray := ⟨⟨0, 0, 0⟩, ⟨1, 0, 0⟩⟩

/-- Ray from `(2,0,0)` in direction `(-1,0,0)`; it meets `sphC` at
parameters `1` and `3`. -/
def rayC : Ray := ⟨⟨2, 0, 0⟩, ⟨-1, 0, 0⟩⟩

/-- The hit `rayX` scores on `sphA`: front face at `(1,0,0)`, `t = 1`. -/
def recA : HitRecord := ⟨⟨1, 0, 0⟩, ⟨-1, 0, 0⟩, grayMat, 1, true⟩

/-- The hit `rayX` scores on `sphB`: grazing back-face contact at
`(1,0,0)`, also `t = 1`. -/
def recB : HitRecord := ⟨⟨1, 0, 0⟩, ⟨0, 1, 0⟩, grayMat, 1, false⟩

/-- The hit `rayC` scores on `sphC`: front face at `(1,0,0)`, `t = 1`
(the quadratic roots of the sphere for `rayC` are `1` and `3`). -/
def recC : HitRecord := ⟨⟨1, 0, 0⟩, ⟨1, 0, 0⟩, grayMat, 1, true⟩

/-! ## Basic algebraic lemmas about `Vec3` -/

theorem Vec3.dot_comm (v w : Vec3) : v.dot w = w.dot v := by
  simp only [Vec3.dot]; ring

theorem Vec3.neg_one_smul_eq_neg (v : Vec3) : (-1 : ℝ) • v = -v := by
  simp only [Vec3.smul_def, Vec3.neg_def, Vec3.mk.injEq]
  refine ⟨?_, ?_, ?_⟩ <;> ring

theorem Vec3.smul_dot (r : ℝ) (v w : Vec3) : (r • v).dot w = r * v.dot w := by
  simp only [Vec3.smul_def, Vec3.dot]; ring

/-! ## Lemmas about `Sphere.hit` -/

theorem root1_le_root2 (A HB D : ℝ) (hA : 0 ≤ A) :
    (-HB - Real.sqrt D) / A ≤ (-HB + Real.sqrt D) / A := by
  rcases eq_or_lt_of_le hA with heq | hpos
  · rw [← heq]; simp
  · have hs := Real.sqrt_nonneg D
    exact (div_le_div_right hpos).mpr (by linarith)

theorem root_solves (A HB C q : ℝ) (hA : A ≠ 0) (hq : q * q = HB * HB - A * C) :
    A * (((-HB + q) / A) * ((-HB + q) / A)) + 2 * HB * ((-HB + q) / A) + C = 0 := by
  have hrw : A * (((-HB + q) / A) * ((-HB + q) / A)) + 2 * HB * ((-HB + q) / A) + C =
      ((-HB + q) * (-HB + q) + 2 * HB * (-HB + q) + C * A) / A := by
    field_simp
    ring
  rw [hrw, div_eq_zero_iff]
  left
  linear_combination hq

/-- If `r` solves the quadratic of the sphere, `ray.at r` lies at distance
exactly `radius` from the center. -/
theorem at_root_on_sphere (s : Sphere) (ray : Ray) (r : ℝ) (hr : 0 < s.radius)
    (hroot : ray.direction.normSq * (r * r) +
      2 * ((ray.origin - s.origin).dot ray.direction) * r +
      ((ray.origin - s.origin).normSq - s.radius * s.radius) = 0) :
    Vec3.norm (Ray.at ray r - s.origin) = s.radius := by
  have hsq : Vec3.normSq (Ray.at ray r - s.origin) = s.radius * s.radius := by
    obtain ⟨⟨ox, oy, oz⟩, ⟨dx, dy, dz⟩⟩ := ray
    obtain ⟨⟨cx, cy, cz⟩, rad, m⟩ := s
    simp only [Ray.at, Vec3.normSq, Vec3.dot, Vec3.add_def, Vec3.sub_def,
      Vec3.smul_def] at hroot ⊢
    linear_combination hroot
  rw [Vec3.norm, hsq]
  exact Real.sqrt_mul_self hr.le

/-- A hit returned by `Sphere.hit` has its parameter inside the closed
interval `[t_min, t_max]`. -/
theorem sphere_hit_t_mem {s : Sphere} {ray : Ray} {t_min : ℝ} {t_max : WithTop ℝ}
    {rec : HitRecord} (hhit : Sphere.hit s ray t_min t_max = some rec) :
    t_min ≤ rec.t ∧ (rec.t : WithTop ℝ) ≤ t_max := by
  simp only [Sphere.hit] at hhit
  set A := ray.direction.normSq with hA
  set HB := (ray.origin - s.origin).dot ray.direction with hHB
  set C := (ray.origin - s.origin).normSq - s.radius * s.radius with hC
  set D := HB * HB - A * C with hD
  set R1 := (-HB - Real.sqrt D) / A with hR1
  set R2 := (-HB + Real.sqrt D) / A with hR2
  by_cases h1 : D < 0
  · rw [if_pos h1] at hhit
    exact absurd hhit (by simp)
  · rw [if_neg h1] at hhit
    by_cases h2 : R1 < t_min ∨ t_max < (R1 : WithTop ℝ)
    · rw [if_pos h2] at hhit
      by_cases h3 : R2 < t_min ∨ t_max < (R2 : WithTop ℝ)
      · rw [if_pos h3] at hhit
        exact absurd hhit (by simp)
      · rw [if_neg h3] at hhit
        obtain rfl := Option.some.inj hhit
        push_neg at h3
        exact ⟨by simpa [HitRecord.new] using h3.1,
          by simpa [HitRecord.new] using h3.2⟩
    · rw [if_neg h2] at hhit
      obtain rfl := Option.some.inj hhit
      push_neg at h2
      exact ⟨by simpa [HitRecord.new] using h2.1,
        by simpa [HitRecord.new] using h2.2⟩

/-- Enlarging the upper bound preserves a successful `Sphere.hit`
verbatim. -/
theorem sphere_hit_extend {s : Sphere} {ray : Ray} {t_min : ℝ}
    {b b' : WithTop ℝ} (hbb : b' ≤ b) {rec : HitRecord}
    (hhit : Sphere.hit s ray t_min b' = some rec) :
    Sphere.hit s ray t_min b = some rec := by
  simp only [Sphere.hit] at hhit ⊢
  set A := ray.direction.normSq with hA
  set HB := (ray.origin - s.origin).dot ray.direction with hHB
  set C := (ray.origin - s.origin).normSq - s.radius * s.radius with hC
  set D := HB * HB - A * C with hD
  set R1 := (-HB - Real.sqrt D) / A with hR1
  set R2 := (-HB + Real.sqrt D) / A with hR2
  have h12 : R1 ≤ R2 := by
    rw [hR1, hR2]
    exact root1_le_root2 A HB D (hA ▸ Vec3.normSq_nonneg ray.direction)
  by_cases h1 : D < 0
  · rw [if_pos h1] at hhit
    exact absurd hhit (by simp)
  · rw [if_neg h1] at hhit
    rw [if_neg h1]
    by_cases h2 : R1 < t_min ∨ b' < (R1 : WithTop ℝ)
    · rw [if_pos h2] at hhit
      by_cases h3 : R2 < t_min ∨ b' < (R2 : WithTop ℝ)
      · rw [if_pos h3] at hhit
        exact absurd hhit (by simp)
      · rw [if_neg h3] at hhit
        push_neg at h3
        have hr1lt : R1 < t_min := by
          rcases h2 with h2 | h2
          · exact h2
          · exfalso
            have hle : (R1 : WithTop ℝ) ≤ b' :=
              le_trans (WithTop.coe_le_coe.mpr h12) h3.2
            exact absurd h2 (not_lt.mpr hle)
        rw [if_pos (Or.inl hr1lt), if_neg (by push_neg; exact ⟨h3.1, le_trans h3.2 hbb⟩)]
        exact hhit
    · rw [if_neg h2] at hhit
      push_neg at h2
      rw [if_neg (by push_neg; exact ⟨h2.1, le_trans h2.2 hbb⟩)]
      exact hhit

/-- Shrinking the upper bound to any value still at or above the found
hit parameter preserves a successful `Sphere.hit` verbatim. -/
theorem sphere_hit_restrict {s : Sphere} {ray : Ray} {t_min : ℝ}
    {b b' : WithTop ℝ} (hbb : b' ≤ b) {rec : HitRecord}
    (hhit : Sphere.hit s ray t_min b = some rec)
    (ht : (rec.t : WithTop ℝ) ≤ b') :
    Sphere.hit s ray t_min b' = some rec := by
  simp only [Sphere.hit] at hhit ⊢
  set A := ray.direction.normSq with hA
  set HB := (ray.origin - s.origin).dot ray.direction with hHB
  set C := (ray.origin - s.origin).normSq - s.radius * s.radius with hC
  set D := HB * HB - A * C with hD
  set R1 := (-HB - Real.sqrt D) / A with hR1
  set R2 := (-HB + Real.sqrt D) / A with hR2
  have h12 : R1 ≤ R2 := by
    rw [hR1, hR2]
    exact root1_le_root2 A HB D (hA ▸ Vec3.normSq_nonneg ray.direction)
  by_cases h1 : D < 0
  · rw [if_pos h1] at hhit
    exact absurd hhit (by simp)
  · rw [if_neg h1] at hhit
    rw [if_neg h1]
    by_cases h2 : R1 < t_min ∨ b < (R1 : WithTop ℝ)
    · rw [if_pos h2] at hhit
      by_cases h3 : R2 < t_min ∨ b < (R2 : WithTop ℝ)
      · rw [if_pos h3] at hhit
        exact absurd hhit (by simp)
      · rw [if_neg h3] at hhit
        obtain rfl := Option.some.inj hhit
        push_neg at h3
        have ht2 : ((R2 : ℝ) : WithTop ℝ) ≤ b' := by
          simpa [HitRecord.new] using ht
        have hr1lt : R1 < t_min := by
          rcases h2 with h2 | h2
          · exact h2
          · exfalso
            have hle : (R1 : WithTop ℝ) ≤ b :=
              le_trans (le_trans (WithTop.coe_le_coe.mpr h12) ht2) hbb
            exact absurd h2 (not_lt.mpr hle)
        rw [if_pos (Or.inl hr1lt), if_neg (by push_neg; exact ⟨h3.1, ht2⟩)]
    · rw [if_neg h2] at hhit
      obtain rfl := Option.some.inj hhit
      push_neg at h2
      have ht1 : ((R1 : ℝ) : WithTop ℝ) ≤ b' := by
        simpa [HitRecord.new] using ht
      rw [if_neg (by push_neg; exact ⟨h2.1, ht1⟩)]

/-! ## Lemmas about the `HittableList` scan -/

/-- Once the scan holds a hit, it never returns `none`. -/
theorem hitScan_some_acc (ray : Ray) (t_min : ℝ) (items : List Sphere) :
    ∀ (r0 : HitRecord) (c : WithTop ℝ),
      hitScan ray t_min items (some r0) c ≠ none := by
  induction items with
  | nil =>
    intro r0 c h
    exact Option.noConfusion h
  | cons s rest ih =>
    intro r0 c
    simp only [hitScan]
    cases hs : Sphere.hit s ray t_min c with
    | some r1 => exact ih r1 _
    | none => exact ih r0 c

/-- The scan starting with no accumulated hit returns `none` iff every
member misses within the current bound. -/
theorem hitScan_none_iff (ray : Ray) (t_min : ℝ) (items : List Sphere) :
    ∀ t_max : WithTop ℝ,
      (hitScan ray t_min items none t_max = none ↔
        ∀ s ∈ items, Sphere.hit s ray t_min t_max = none) := by
  induction items with
  | nil => intro t_max; simp [hitScan]
  | cons s rest ih =>
    intro t_max
    simp only [hitScan]
    cases hs : Sphere.hit s ray t_min t_max with
    | some r1 =>
      simp only [List.mem_cons]
      constructor
      · intro h
        exact absurd h (hitScan_some_acc ray t_min rest r1 _)
      · intro h
        exact absurd (h s (Or.inl rfl)) (by simp [hs])
    | none =>
      rw [ih t_max]
      constructor
      · intro h s' hs'
        rcases List.mem_cons.mp hs' with rfl | hmem
        · exact hs
        · exact h s' hmem
      · intro h s' hs'
        exact h s' (List.mem_cons.mpr (Or.inr hs'))

/-- Minimality: a hit produced by the scan has parameter at most the
running bound and at most the parameter of any hit a member scores within the
running bound. -/
theorem hitScan_min (ray : Ray) (t_min : ℝ) (items : List Sphere) :
    ∀ (acc : Option HitRecord) (closest : WithTop ℝ),
      (∀ r0, acc = some r0 → closest = (r0.t : WithTop ℝ)) →
      ∀ rec, hitScan ray t_min items acc closest = some rec →
        (rec.t : WithTop ℝ) ≤ closest ∧
        ∀ s ∈ items, ∀ rec', Sphere.hit s ray t_min closest = some rec' →
          rec.t ≤ rec'.t := by
  induction items with
  | nil =>
    intro acc closest hinv rec h
    have hacc : acc = some rec := h
    exact ⟨le_of_eq (hinv rec hacc).symm, by simp⟩
  | cons s rest ih =>
    intro acc closest hinv rec h
    simp only [hitScan] at h
    cases hs : Sphere.hit s ray t_min closest with
    | some r1 =>
      rw [hs] at h
      have hb := sphere_hit_t_mem hs
      have ih' := ih (some r1) (r1.t : WithTop ℝ)
        (by intro r0 hr0; cases hr0; rfl) rec h
      refine ⟨le_trans ih'.1 hb.2, ?_⟩
      intro s' hs' rec' hrec'
      rcases List.mem_cons.mp hs' with rfl | hmem
      · rw [hs] at hrec'
        obtain rfl := Option.some.inj hrec'
        exact WithTop.coe_le_coe.mp ih'.1
      · have hb' := sphere_hit_t_mem hrec'
        by_cases hcmp : (rec'.t : WithTop ℝ) ≤ (r1.t : WithTop ℝ)
        · have hres := sphere_hit_restrict hb.2 hrec' hcmp
          exact ih'.2 s' hmem rec' hres
        · push_neg at hcmp
          have h1 : rec.t ≤ r1.t := WithTop.coe_le_coe.mp ih'.1
          have h2 : r1.t < rec'.t := WithTop.coe_lt_coe.mp hcmp
          exact le_of_lt (lt_of_le_of_lt h1 h2)
    | none =>
      rw [hs] at h
      have ih' := ih acc closest hinv rec h
      refine ⟨ih'.1, ?_⟩
      intro s' hs' rec' hrec'
      rcases List.mem_cons.mp hs' with rfl | hmem
      · exact absurd hrec' (by simp [hs])
      · exact ih'.2 s' hmem rec' hrec'

/-- Provenance: a hit produced by the scan either comes from a member
all of whose *later* peers have strictly larger hit parameters (with
respect to the original bound `t_max`), or it is the accumulator and
every hit of a member is strictly later. -/
theorem hitScan_last (ray : Ray) (t_min : ℝ) (t_max : WithTop ℝ)
    (items : List Sphere) :
    ∀ (acc : Option HitRecord) (closest : WithTop ℝ),
      closest ≤ t_max →
      (∀ r0, acc = some r0 → closest = (r0.t : WithTop ℝ)) →
      ∀ rec, hitScan ray t_min items acc closest = some rec →
        (∃ pre s post, items = pre ++ s :: post ∧
          Sphere.hit s ray t_min t_max = some rec ∧
          ∀ s' ∈ post, ∀ rec', Sphere.hit s' ray t_min t_max = some rec' →
            rec.t < rec'.t)
        ∨ (acc = some rec ∧
          ∀ s ∈ items, ∀ rec', Sphere.hit s ray t_min t_max = some rec' →
            rec.t < rec'.t) := by
  induction items with
  | nil =>
    intro acc closest hct hinv rec h
    exact Or.inr ⟨h, by simp⟩
  | cons s rest ih =>
    intro acc closest hct hinv rec h
    simp only [hitScan] at h
    cases hs : Sphere.hit s ray t_min closest with
    | some r1 =>
      rw [hs] at h
      have hb := sphere_hit_t_mem hs
      have hr1t : (r1.t : WithTop ℝ) ≤ t_max := le_trans hb.2 hct
      rcases ih (some r1) (r1.t : WithTop ℝ) hr1t
        (by intro r0 hr0; cases hr0; rfl) rec h with
        ⟨pre, s', post, heq, hfull, hpost⟩ | ⟨hacc, hstrict⟩
      · exact Or.inl ⟨s :: pre, s', post, by rw [heq, List.cons_append], hfull, hpost⟩
      · obtain rfl := Option.some.inj hacc
        refine Or.inl ⟨[], s, rest, rfl, sphere_hit_extend hct hs, ?_⟩
        intro s' hs' rec' h'
        exact hstrict s' hs' rec' h'
    | none =>
      rw [hs] at h
      rcases ih acc closest hct hinv rec h with
        ⟨pre, s', post, heq, hfull, hpost⟩ | ⟨hacc, hstrict⟩
      · exact Or.inl ⟨s :: pre, s', post, by rw [heq, List.cons_append], hfull, hpost⟩
      · refine Or.inr ⟨hacc, ?_⟩
        intro s' hs' rec' h'
        rcases List.mem_cons.mp hs' with rfl | hmem
        · have hcl : closest = (rec.t : WithTop ℝ) := hinv rec hacc
          by_contra hlt
          push_neg at hlt
          have hle : (rec'.t : WithTop ℝ) ≤ closest := by
            rw [hcl]
            exact WithTop.coe_le_coe.mpr hlt
          have := sphere_hit_restrict hct h' hle
          rw [this] at hs
          exact Option.noConfusion hs
        · exact hstrict s' hmem rec' h'

/-! ## Concrete evaluations of the intersection code -/

theorem sphA_hit_10 :
    Sphere.hit sphA rayX 0 ((10 : ℝ) : WithTop ℝ) = some recA := by
  simp only [Sphere.hit, sphA, rayX, recA, grayMat, HitRecord.new, Ray.at,
    Vec3.normSq, Vec3.dot, Vec3.sub_def, Vec3.add_def, Vec3.smul_def, Vec3.div_def]
  norm_num [WithTop.coe_lt_coe]

theorem sphB_hit_10 :
    Sphere.hit sphB rayX 0 ((10 : ℝ) : WithTop ℝ) = some recB := by
  simp only [Sphere.hit, sphB, rayX, recB, grayMat, HitRecord.new, Ray.at,
    Vec3.normSq, Vec3.dot, Vec3.sub_def, Vec3.add_def, Vec3.smul_def, Vec3.div_def]
  norm_num [WithTop.coe_lt_coe]

theorem sphB_hit_recAt :
    Sphere.hit sphB rayX 0 ((recA.t : ℝ) : WithTop ℝ) = some recB := by
  simp only [Sphere.hit, sphB, rayX, recA, recB, grayMat, HitRecord.new, Ray.at,
    Vec3.normSq, Vec3.dot, Vec3.sub_def, Vec3.add_def, Vec3.smul_def, Vec3.div_def]
  norm_num [WithTop.coe_lt_coe]

theorem sphC_hit_1_4 :
    Sphere.hit sphC rayC 1 ((4 : ℝ) : WithTop ℝ) = some recC := by
  simp only [Sphere.hit, sphC, rayC, recC, grayMat, HitRecord.new, Ray.at,
    Vec3.normSq, Vec3.dot, Vec3.sub_def, Vec3.add_def, Vec3.smul_def, Vec3.div_def]
  norm_num [WithTop.coe_lt_coe]

theorem listA_hit_10 :
    HittableList.hit ⟨[sphA]⟩ rayX 0 ((10 : ℝ) : WithTop ℝ) = some recA := by
  simp only [HittableList.hit, hitScan, sphA_hit_10]

theorem listAB_hit_10 :
    HittableList.hit ⟨[sphA, sphB]⟩ rayX 0 ((10 : ℝ) : WithTop ℝ) = some recB := by
  simp only [HittableList.hit, hitScan, sphA_hit_10, sphB_hit_recAt]

/-! ## Claim theorems -/

/-- Counterexample to Claim C1 as stated: for the unit sphere at the
origin and the ray from `(2,0,0)` with direction `(-1,0,0)` under bounds
`t_min = 1`, `t_max = 4`, the quadratic roots are `1` and `3`; the
smaller root `1` does *not* lie in the open interval `(1,4)` while the
larger root `3` does, so the claim demands a hit at `t = 3` — but the
code accepts the boundary value and returns the hit at `t = 1`. -/
theorem sphere_hit_open_interval_counterexample :
    (let half_b := (rayC.origin - sphC.origin).dot rayC.direction
     let a := rayC.direction.normSq
     let c := (rayC.origin - sphC.origin).normSq - sphC.radius * sphC.radius
     (-half_b - Real.sqrt (half_b * half_b - a * c)) / a = 1 ∧
     (-half_b + Real.sqrt (half_b * half_b - a * c)) / a = 3) ∧
    (1 : ℝ) ∉ Set.Ioo (1 : ℝ) 4 ∧
    (3 : ℝ) ∈ Set.Ioo (1 : ℝ) 4 ∧
    (Sphere.hit sphC rayC 1 ((4 : ℝ) : WithTop ℝ)).map HitRecord.t = some 1 ∧
    (1 : ℝ) ≠ 3 := by
  refine ⟨⟨?_, ?_⟩, ?_, ?_, ?_, by norm_num⟩
  · norm_num [rayC, sphC, Vec3.normSq, Vec3.dot]
  · norm_num [rayC, sphC, Vec3.normSq, Vec3.dot]
  · simp [Set.mem_Ioo]
  · simp [Set.mem_Ioo]; norm_num
  · rw [sphC_hit_1_4]
    simp [recC]

/-- Claim C1 (amended: the in-range test accepts the *closed* interval
`[t_min, t_max]`, since the code rejects a root only when
`root < t_min` or `t_max < root`): a negative discriminant gives no hit;
otherwise the smaller root is returned if it lies in `[t_min, t_max]`,
else the larger root if that one does, else nothing; and every returned
hit point lies at distance exactly `radius` from the center. -/
theorem sphere_hit_spec (s : Sphere) (ray : Ray) (t_min : ℝ) (t_max : WithTop ℝ)
    (ha : 0 < ray.direction.normSq) (hr : 0 < s.radius) :
    (let half_b := (ray.origin - s.origin).dot ray.direction
     let a := ray.direction.normSq
     let c := (ray.origin - s.origin).normSq - s.radius * s.radius
     let discriminant := half_b * half_b - a * c
     let root1 := (-half_b - Real.sqrt discriminant) / a
     let root2 := (-half_b + Real.sqrt discriminant) / a
     (discriminant < 0 → Sphere.hit s ray t_min t_max = none) ∧
     (0 ≤ discriminant →
       (t_min ≤ root1 ∧ (root1 : WithTop ℝ) ≤ t_max →
         Sphere.hit s ray t_min t_max =
           some (HitRecord.new (ray.at root1) ((ray.at root1 - s.origin) / s.radius)
             s.material root1 ray)) ∧
       ((root1 < t_min ∨ t_max < (root1 : WithTop ℝ)) →
         t_min ≤ root2 ∧ (root2 : WithTop ℝ) ≤ t_max →
         Sphere.hit s ray t_min t_max =
           some (HitRecord.new (ray.at root2) ((ray.at root2 - s.origin) / s.radius)
             s.material root2 ray)) ∧
       ((root1 < t_min ∨ t_max < (root1 : WithTop ℝ)) →
         (root2 < t_min ∨ t_max < (root2 : WithTop ℝ)) →
         Sphere.hit s ray t_min t_max = none)) ∧
     (∀ rec, Sphere.hit s ray t_min t_max = some rec →
       Vec3.norm (rec.point - s.origin) = s.radius)) := by
  dsimp only
  refine ⟨?_, ?_, ?_⟩
  · intro hd
    simp only [Sphere.hit]
    rw [if_pos hd]
  · intro hd
    refine ⟨?_, ?_, ?_⟩
    · rintro ⟨h1, h2⟩
      simp only [Sphere.hit]
      rw [if_neg (not_lt.mpr hd), if_neg (by push_neg; exact ⟨h1, h2⟩)]
    · rintro hout ⟨h1, h2⟩
      simp only [Sphere.hit]
      rw [if_neg (not_lt.mpr hd), if_pos hout, if_neg (by push_neg; exact ⟨h1, h2⟩)]
    · intro hout1 hout2
      simp only [Sphere.hit]
      rw [if_neg (not_lt.mpr hd), if_pos hout1, if_pos hout2]
  · intro rec hrec
    simp only [Sphere.hit] at hrec
    set A := ray.direction.normSq with hA
    set HB := (ray.origin - s.origin).dot ray.direction with hHB
    set C := (ray.origin - s.origin).normSq - s.radius * s.radius with hC
    set D := HB * HB - A * C with hD
    set R1 := (-HB - Real.sqrt D) / A with hR1
    set R2 := (-HB + Real.sqrt D) / A with hR2
    have hA' : A ≠ 0 := ne_of_gt ha
    by_cases h1 : D < 0
    · rw [if_pos h1] at hrec
      exact absurd hrec (by simp)
    · rw [if_neg h1] at hrec
      have hq2 : Real.sqrt D * Real.sqrt D = HB * HB - A * C := by
        rw [Real.mul_self_sqrt (not_lt.mp h1)]
      by_cases h2 : R1 < t_min ∨ t_max < (R1 : WithTop ℝ)
      · rw [if_pos h2] at hrec
        by_cases h3 : R2 < t_min ∨ t_max < (R2 : WithTop ℝ)
        · rw [if_pos h3] at hrec
          exact absurd hrec (by simp)
        · rw [if_neg h3] at hrec
          obtain rfl := Option.some.inj hrec
          have hroot2 : A * (R2 * R2) + 2 * HB * R2 + C = 0 := by
            rw [hR2]
            exact root_solves A HB C (Real.sqrt D) hA' hq2
          have := at_root_on_sphere s ray R2 hr hroot2
          simpa [HitRecord.new] using this
      · rw [if_neg h2] at hrec
        obtain rfl := Option.some.inj hrec
        have hroot1 : A * (R1 * R1) + 2 * HB * R1 + C = 0 := by
          rw [hR1, show (-HB - Real.sqrt D) / A = (-HB + -Real.sqrt D) / A by ring]
          exact root_solves A HB C (-Real.sqrt D) hA' (by rw [neg_mul_neg]; exact hq2)
        have := at_root_on_sphere s ray R1 hr hroot1
        simpa [HitRecord.new] using this

/-- Witness for the amended C1: `rayC` meets `sphC` under the bounds
`[1, 4]` and the returned hit point is at distance exactly `1` from the
center. -/
theorem sphere_hit_spec_witness :
    (0 : ℝ) < Vec3.normSq rayC.direction ∧ (0 : ℝ) < sphC.radius ∧
    Vec3.norm (recC.point - sphC.origin) = sphC.radius := by
  have h1 : (0 : ℝ) < Vec3.normSq rayC.direction := by
    norm_num [rayC, Vec3.normSq, Vec3.dot]
  have h2 : (0 : ℝ) < sphC.radius := by norm_num [sphC]
  have hmain := sphere_hit_spec sphC rayC 1 ((4 : ℝ) : WithTop ℝ) h1 h2
  dsimp only at hmain
  exact ⟨h1, h2, hmain.2.2 recC sphC_hit_1_4⟩

/-- Counterexample to Claim C2 as stated: two spheres whose hits on the
same ray have exactly equal parameter `t = 1`; the list scan returns the
hit of the *later* member (`recB`), not the earlier one (`recA`) —
because the shrinking bound is inclusive, an exactly-equal later hit
replaces the earlier one, so the tie-break is "last closest", not
"first closest". -/
theorem hittableList_first_tie_counterexample :
    Sphere.hit sphA rayX 0 ((10 : ℝ) : WithTop ℝ) = some recA ∧
    Sphere.hit sphB rayX 0 ((10 : ℝ) : WithTop ℝ) = some recB ∧
    recA.t = recB.t ∧
    HittableList.hit ⟨[sphA, sphB]⟩ rayX 0 ((10 : ℝ) : WithTop ℝ) = some recB ∧
    recB ≠ recA :=
  ⟨sphA_hit_10, sphB_hit_10, rfl, listAB_hit_10, by simp [recA, recB]⟩

/-- Claim C2 (amended: when two members attain exactly the same minimal
`t`, the member *later* in scan order wins the tie, since the shrinking
`closest_so_far` bound is inclusive): the scan returns nothing iff no
member hits within the bounds; otherwise it returns a hit whose
parameter is minimal among all members' valid hits, produced by a member
all of whose later peers hit strictly beyond it. -/
theorem hittableList_hit_spec (items : List Sphere) (ray : Ray) (t_min : ℝ)
    (t_max : WithTop ℝ) (hb : (t_min : WithTop ℝ) ≤ t_max) :
    (HittableList.hit ⟨items⟩ ray t_min t_max = none ↔
      ∀ s ∈ items, Sphere.hit s ray t_min t_max = none) ∧
    (∀ rec, HittableList.hit ⟨items⟩ ray t_min t_max = some rec →
      (∀ s ∈ items, ∀ rec', Sphere.hit s ray t_min t_max = some rec' →
        rec.t ≤ rec'.t) ∧
      ∃ pre s post, items = pre ++ s :: post ∧
        Sphere.hit s ray t_min t_max = some rec ∧
        ∀ s' ∈ post, ∀ rec', Sphere.hit s' ray t_min t_max = some rec' →
          rec.t < rec'.t) := by
  refine ⟨hitScan_none_iff ray t_min items t_max, ?_⟩
  intro rec h
  have hmin := hitScan_min ray t_min items none t_max
    (by intro r0 h0; exact absurd h0 (by simp)) rec h
  refine ⟨hmin.2, ?_⟩
  rcases hitScan_last ray t_min t_max items none t_max le_rfl
    (by intro r0 h0; exact absurd h0 (by simp)) rec h with hres | ⟨habs, _⟩
  · exact hres
  · exact absurd habs (by simp)

/-- Witness for the amended C2 on the one-element scene `[sphA]` with
bounds `0 ≤ 10`: the result of the scan is minimal among member hits. -/
theorem hittableList_hit_spec_witness :
    ((0 : ℝ) : WithTop ℝ) ≤ ((10 : ℝ) : WithTop ℝ) ∧ recA.t ≤ recA.t := by
  have hb : ((0 : ℝ) : WithTop ℝ) ≤ ((10 : ℝ) : WithTop ℝ) :=
    WithTop.coe_le_coe.mpr (by norm_num)
  exact ⟨hb, ((hittableList_hit_spec [sphA] rayX 0 _ hb).2 recA listA_hit_10).1
    sphA (by simp) recA sphA_hit_10⟩

/-- Claim C3: a `HitRecord` built by `HitRecord::new` stores a normal
that opposes the incoming ray (`normal ⬝ direction ≤ 0`); `front_face`
is true exactly when `direction ⬝ outward_normal < 0`; and the stored
normal is the outward normal when `front_face` holds and its negation
otherwise. -/
theorem hitRecord_new_spec (point : Point) (outward_normal : Vec3)
    (material : Material) (t : ℝ) (ray : Ray) :
    (HitRecord.new point outward_normal material t ray).normal.dot ray.direction ≤ 0 ∧
    ((HitRecord.new point outward_normal material t ray).front_face = true ↔
      ray.direction.dot outward_normal < 0) ∧
    ((HitRecord.new point outward_normal material t ray).front_face = true →
      (HitRecord.new point outward_normal material t ray).normal = outward_normal) ∧
    ((HitRecord.new point outward_normal material t ray).front_face = false →
      (HitRecord.new point outward_normal material t ray).normal = -outward_normal) := by
  by_cases h : ray.direction.dot outward_normal < 0
  · refine ⟨?_, ?_, ?_, ?_⟩
    · simp only [HitRecord.new, if_pos h]
      rw [Vec3.dot_comm]; exact le_of_lt h
    · simp [HitRecord.new, h]
    · intro _; simp [HitRecord.new, h]
    · intro hf; exfalso
      simp [HitRecord.new, h] at hf
  · refine ⟨?_, ?_, ?_, ?_⟩
    · simp only [HitRecord.new, if_neg h]
      rw [Vec3.smul_dot, Vec3.dot_comm]
      have h' : 0 ≤ ray.direction.dot outward_normal := not_lt.mp h
      nlinarith
    · simp [HitRecord.new, h]
    · intro hf; exfalso
      simp [HitRecord.new, h] at hf
    · intro _
      simp only [HitRecord.new, if_neg h]
      exact Vec3.neg_one_smul_eq_neg outward_normal

/-- Claim C4: `ray_color` with remaining depth `0` returns exactly black
for every ray, every scene and every random stream. -/
theorem ray_color_depth_zero (ray : Ray) (world : HittableList)
    (rnd : ℕ → ScatterRand) :
    ray_color ray world 0 rnd = Vec3.from_element 0 := rfl

/-- Claim C5: a ray with nonzero-length direction that misses every
object (bounds `0.001` to `+∞`) is colored, at any depth `≥ 1`, by the
background gradient `(1-t)·(1,1,1) + t·(0.5,0.7,1.0)` with
`t = 0.5·(unit_direction.y + 1)`; a normalized direction with `y = 0`
yields exactly `(0.75, 0.85, 1.0)`. -/
theorem ray_color_background (ray : Ray) (world : HittableList)
    (recursion_depth : ℕ) (rnd : ℕ → ScatterRand)
    (hdir : ray.direction.normSq ≠ 0)
    (hmiss : world.hit ray 0.001 ⊤ = none)
    (hdepth : 1 ≤ recursion_depth) :
    ray_color ray world recursion_depth rnd =
      (1 - 0.5 * (ray.direction.normalize.y + 1)) • Vec3.from_element 1 +
        (0.5 * (ray.direction.normalize.y + 1)) • (⟨0.5, 0.7, 1.0⟩ : Color) ∧
    (ray.direction.normalize.y = 0 →
      ray_color ray world recursion_depth rnd = ⟨0.75, 0.85, 1.0⟩) := by
  obtain ⟨d, rfl⟩ : ∃ d, recursion_depth = d + 1 :=
    ⟨recursion_depth - 1, by omega⟩
  have hbg : ray_color ray world (d + 1) rnd =
      (1 - 0.5 * (ray.direction.normalize.y + 1)) • Vec3.from_element 1 +
        (0.5 * (ray.direction.normalize.y + 1)) • (⟨0.5, 0.7, 1.0⟩ : Color) := by
    simp only [ray_color, hmiss]
  refine ⟨hbg, fun hy => ?_⟩
  rw [hbg, hy]
  rw [Vec3.ext_iff']
  norm_num [Vec3.from_element]

/-- Witness for C5: the ray along the x-axis in the empty scene at
depth `1` receives exactly the color `(0.75, 0.85, 1.0)`. -/
theorem ray_color_background_witness :
    Vec3.normSq ⟨1, 0, 0⟩ ≠ 0 ∧
    HittableList.hit ⟨[]⟩ (Ray.mk ⟨0, 0, 0⟩ ⟨1, 0, 0⟩) 0.001 ⊤ = none ∧
    ray_color (Ray.mk ⟨0, 0, 0⟩ ⟨1, 0, 0⟩) ⟨[]⟩ 1
      (fun _ => ⟨⟨0, 0, 0⟩, ⟨0, 0, 0⟩, 0⟩) = ⟨0.75, 0.85, 1.0⟩ := by
  have h1 : Vec3.normSq (⟨1, 0, 0⟩ : Vec3) ≠ 0 := by
    norm_num [Vec3.normSq, Vec3.dot]
  have h2 : HittableList.hit ⟨[]⟩ (Ray.mk ⟨0, 0, 0⟩ ⟨1, 0, 0⟩) 0.001 ⊤ = none := rfl
  have hy : (Ray.mk (⟨0, 0, 0⟩ : Vec3) ⟨1, 0, 0⟩).direction.normalize.y = 0 := by
    simp [Vec3.normalize, Vec3.norm, Vec3.normSq, Vec3.dot]
  exact ⟨h1, h2,
    (ray_color_background (Ray.mk ⟨0, 0, 0⟩ ⟨1, 0, 0⟩) ⟨[]⟩ 1
      (fun _ => ⟨⟨0, 0, 0⟩, ⟨0, 0, 0⟩, 0⟩) h1 h2 (le_refl 1)).2 hy⟩

/-- Claim C6 concerns `Lambertian::scatter`.  The near-zero test of the code
is `vector < &Vector::from_element(1e-8)`, a *signed* componentwise
comparison, while both the surrounding comment ("scatter_direction is
very close to zero") and the spec describe a comparison of component
*magnitudes*.  This theorem evaluates the code at the failing input
`normal = (0,0,-1)`, `random_unit_vector = (-1,-1,0)`: the candidate
direction `(-1,-1,-1)` is nowhere near zero (components of magnitude
`1`), yet the signed test accepts it and the fallback replaces the
scatter direction with the normal. -/
theorem lambertian_near_zero_bug_eval :
    vector_near_zero ((⟨0, 0, -1⟩ : Vec3) + ⟨-1, -1, 0⟩) ∧
    ¬ |((⟨0, 0, -1⟩ : Vec3) + ⟨-1, -1, 0⟩).x| < 1e-8 ∧
    (Lambertian.scatter ⟨0.5, 0.5, 0.5⟩ (Ray.mk ⟨0, 0, 0⟩ ⟨0, 0, 1⟩)
      (HitRecord.mk ⟨0, 0, 0⟩ ⟨0, 0, -1⟩ grayMat 1 true)
      (ScatterRand.mk ⟨-1, -1, 0⟩ ⟨0, 0, 0⟩ 0)).map (fun rc => rc.1.direction) =
      some ⟨0, 0, -1⟩ := by
  have hnz : vector_near_zero ((⟨0, 0, -1⟩ : Vec3) + ⟨-1, -1, 0⟩) := by
    norm_num [vector_near_zero, Vec3.compLt, Vec3.from_element]
  refine ⟨hnz, by norm_num, ?_⟩
  simp only [Lambertian.scatter]
  rw [if_pos hnz]
  rfl

/-- Claim C7: `Metal::scatter` returns nothing iff the fuzz-perturbed
reflected direction satisfies `scattered ⬝ normal ≤ 0`; otherwise it
returns that direction as a ray from the hit point, paired with the
albedo of the metal. -/
theorem metal_scatter_spec (albedo : Color) (fuzz : ℝ) (input_ray : Ray)
    (hit_record : HitRecord) (rnd : ScatterRand) :
    (Metal.scatter albedo fuzz input_ray hit_record rnd = none ↔
      (reflect input_ray.direction.normalize hit_record.normal +
        fuzz • rnd.inUnitSphere).dot hit_record.normal ≤ 0) ∧
    ((reflect input_ray.direction.normalize hit_record.normal +
        fuzz • rnd.inUnitSphere).dot hit_record.normal > 0 →
      Metal.scatter albedo fuzz input_ray hit_record rnd =
        some (Ray.mk hit_record.point
          (reflect input_ray.direction.normalize hit_record.normal +
            fuzz • rnd.inUnitSphere), albedo)) := by
  simp only [Metal.scatter]
  split_ifs with h
  · exact ⟨iff_of_false (by simp) (not_le.mpr h), fun _ => rfl⟩
  · exact ⟨iff_of_true rfl (not_lt.mp h), fun hc => absurd hc h⟩

/-- Witness for C7 at a concrete mirror-like input: the scattered
direction points away from the surface and the scatter result is the
reflected ray with the albedo of the metal. -/
theorem metal_scatter_spec_witness :
    (reflect (Vec3.normalize ⟨0, -1, 0⟩) (⟨0, 1, 0⟩ : Vec3) +
      (0 : ℝ) • (⟨0, 0, 0⟩ : Vec3)).dot ⟨0, 1, 0⟩ > 0 ∧
    Metal.scatter ⟨0.8, 0.8, 0.8⟩ 0 (Ray.mk ⟨0, 0, 0⟩ ⟨0, -1, 0⟩)
      (HitRecord.mk ⟨0, 0, 0⟩ ⟨0, 1, 0⟩ (Material.lambertian ⟨0, 0, 0⟩) 1 true)
      (ScatterRand.mk ⟨0, 0, 0⟩ ⟨0, 0, 0⟩ 0) =
      some (Ray.mk ⟨0, 0, 0⟩
        (reflect (Vec3.normalize ⟨0, -1, 0⟩) (⟨0, 1, 0⟩ : Vec3) +
          (0 : ℝ) • (⟨0, 0, 0⟩ : Vec3)), ⟨0.8, 0.8, 0.8⟩) := by
  have hnorm : Vec3.norm ⟨0, -1, 0⟩ = 1 := by
    rw [Vec3.norm]
    norm_num [Vec3.normSq, Vec3.dot, Real.sqrt_one]
  have hpos : (reflect (Vec3.normalize ⟨0, -1, 0⟩) (⟨0, 1, 0⟩ : Vec3) +
      (0 : ℝ) • (⟨0, 0, 0⟩ : Vec3)).dot ⟨0, 1, 0⟩ > 0 := by
    simp only [reflect, Vec3.normalize, hnorm, Vec3.dot, Vec3.smul_def,
      Vec3.sub_def, Vec3.add_def, Vec3.div_def]
    norm_num
  exact ⟨hpos,
    (metal_scatter_spec ⟨0.8, 0.8, 0.8⟩ 0 (Ray.mk ⟨0, 0, 0⟩ ⟨0, -1, 0⟩)
      (HitRecord.mk ⟨0, 0, 0⟩ ⟨0, 1, 0⟩ (Material.lambertian ⟨0, 0, 0⟩) 1 true)
      (ScatterRand.mk ⟨0, 0, 0⟩ ⟨0, 0, 0⟩ 0)).2 hpos⟩

/-- Claim C8: `Dielectric::scatter` always returns a scattered ray
(in the forced-reflection, probabilistic-reflection and refraction
branches alike) and its attenuation is always exactly `(1,1,1)`. -/
theorem dielectric_scatter_total (refraction_index : ℝ) (input_ray : Ray)
    (hit_record : HitRecord) (rnd : ScatterRand) :
    ∃ scattered_ray : Ray,
      Dielectric.scatter refraction_index input_ray hit_record rnd =
        some (scattered_ray, Vec3.from_element 1) := by
  simp only [Dielectric.scatter]
  exact ⟨_, rfl⟩

/-- Claim C9 (range part): every emitted channel, i.e. the accumulated
sum divided by the sample count, square-rooted, clamped to `[0, 0.999]`,
scaled by `256` and truncated, is an integer in `[0, 255]`. -/
theorem write_channel_in_range (sum : ℝ) (samples_per_pixel : ℕ) :
    0 ≤ write_channel sum samples_per_pixel ∧
    write_channel sum samples_per_pixel ≤ 255 := by
  have h0 : (0 : ℝ) ≤ min (max (Real.sqrt (sum / samples_per_pixel)) 0) 0.999 :=
    le_min (le_max_right _ _) (by norm_num)
  have h1 : min (max (Real.sqrt (sum / samples_per_pixel)) 0) 0.999 ≤ 0.999 :=
    min_le_right _ _
  have hx : (0 : ℝ) ≤ min (max (Real.sqrt (sum / samples_per_pixel)) 0) 0.999 * 256 :=
    mul_nonneg h0 (by norm_num)
  unfold write_channel f64_trunc
  rw [if_pos hx]
  constructor
  · exact Int.le_floor.mpr (by push_cast; exact hx)
  · have hlt : min (max (Real.sqrt (sum / samples_per_pixel)) 0) 0.999 * 256 < 256 := by
      nlinarith
    have h2 : ⌊min (max (Real.sqrt (sum / samples_per_pixel)) 0) 0.999 * 256⌋ < (256 : ℤ) :=
      Int.floor_lt.mpr (by push_cast; exact hlt)
    omega

/-- Claim C10: reflection about a unit normal is an involution:
`reflect (reflect v n) n = v` whenever `‖n‖ = 1`. -/
theorem reflect_involution (v n : Vec3) (h : Vec3.norm n = 1) :
    reflect (reflect v n) n = v := by
  have h2 : n.normSq = 1 := by
    have hs := Real.sq_sqrt (Vec3.normSq_nonneg n)
    rw [Vec3.norm] at h
    rw [h] at hs
    simpa using hs.symm
  rcases v with ⟨vx, vy, vz⟩
  rcases n with ⟨nx, ny, nz⟩
  simp only [Vec3.normSq, Vec3.dot] at h2
  simp only [reflect, Vec3.dot, Vec3.smul_def, Vec3.sub_def, Vec3.mk.injEq]
  refine ⟨?_, ?_, ?_⟩
  · linear_combination (4 * (vx * nx + vy * ny + vz * nz) * nx) * h2
  · linear_combination (4 * (vx * nx + vy * ny + vz * nz) * ny) * h2
  · linear_combination (4 * (vx * nx + vy * ny + vz * nz) * nz) * h2

/-- Witness for C10 at `n = (0,1,0)`, `v = (1,2,3)`. -/
theorem reflect_involution_witness :
    Vec3.norm ⟨0, 1, 0⟩ = 1 ∧
    reflect (reflect ⟨1, 2, 3⟩ ⟨0, 1, 0⟩) ⟨0, 1, 0⟩ = (⟨1, 2, 3⟩ : Vec3) := by
  have h : Vec3.norm ⟨0, 1, 0⟩ = 1 := by
    rw [Vec3.norm]
    norm_num [Vec3.normSq, Vec3.dot, Real.sqrt_one]
  exact ⟨h, reflect_involution ⟨1, 2, 3⟩ ⟨0, 1, 0⟩ h⟩

end
